import Mathlib

/-!
Verification model of the `DataMatrix` component of `ms/data_matrix.h`
(helit, mean-shift module).

The repository ships only the header `src/ms/data_matrix.h`; the bodies of the
`DataMatrix_*` functions live in `data_matrix.c`, which is not part of the
source tree here.  The model below therefore follows the header's declarations
and documentation comments, and — where the header is silent — the accompanying
specification (spec.md).  Definitions standing in for missing bodies carry a
doc comment starting `Modelled from the spec:`.

Numeric values are modelled as exact rationals (`ℚ`): every quantity the
claims speak about is a dataflow fact (which element is read, which codec and
multiplier are applied, which index a search returns), not a rounding fact.
-/

namespace MS

/-- The role of one dimension of the wrapped array, from `data_matrix.h`:
`typedef enum {DIM_DATA, DIM_DUAL, DIM_FEATURE} DimType;`. -/
inductive DimType
| DIM_DATA
| DIM_DUAL
| DIM_FEATURE
deriving DecidableEq, Repr

/-- Error taxonomy of the specification (spec.md §7). -/
inductive Err
| ConfigurationError
| UnsupportedFormatError
| OutOfRangeError
| DegenerateDistributionError
| UninitializedError
deriving DecidableEq, Repr

/-- Modelled from the spec: a `TypeCodec` (the `Convert` objects of
`convert.h`, absent from the tree) — a pair of pure per-element conversion
functions between the external storage value and the canonical internal
float. -/
structure Convert where
  decode : ℚ → ℚ
  encode : ℚ → ℚ

/-- The identity codec: used at every position when no conversion is
configured. -/
def idConvert : Convert := ⟨id, id⟩

/-- Tagged result of the `to_int` / `to_ext` conversions, making the aliasing
behaviour of `DataMatrix_to_int` / `DataMatrix_to_ext` explicit: `borrowed`
means the returned values live in the caller-supplied buffer (the pointer
returned is the caller's own buffer, possibly rewritten in place); `owned`
means a separate buffer was filled. -/
inductive ConvResult
| borrowed (values : List ℚ)
| owned (values : List ℚ)
deriving DecidableEq, Repr

/-- The values held by a conversion result, whichever buffer they live in. -/
def ConvResult.values : ConvResult → List ℚ
| .borrowed v => v
| .owned v => v

/-- Shallow embedding of `struct DataMatrix` (data_matrix.h lines 53–96).
The numpy array is modelled by its shape and a total row-major read function
`data` (the value `to_float` would produce at a flat offset); derived caches
(`exemplars`, `feats`, `dual_feats`, `feat_dims`, `feat_indices`) are modelled
as recomputed functions of this state, per spec.md §9 ("explicitly recomputed
immutable snapshots"). -/
structure DataMatrix where
  shape : List ℕ
  dt : List DimType
  data : ℕ → ℚ
  weight_index : Int
  weight_scale : ℚ
  weight_cum : Option (List ℚ)
  mult : List ℚ
  conv : Option (List Convert)

/-- Row-major mixed-radix decomposition of a flat index over the given list of
extents (first axis slowest, last axis fastest). -/
def unflatten : List ℕ → ℕ → List ℕ
| [], _ => []
| _ :: es, n => n / es.prod :: unflatten es (n % es.prod)

/-- Row-major recombination of per-axis coordinates over the given extents. -/
def flatten : List ℕ → List ℕ → ℕ
| [], _ => 0
| _ :: _, [] => 0
| _ :: es, c :: cs => c * es.prod + flatten es cs

/-- Interleave exemplar-axis coordinates and feature-axis coordinates back
into full-rank coordinate order: feature-role axes take the next feature
coordinate, all other axes the next exemplar coordinate. -/
def mergeCoords : List DimType → List ℕ → List ℕ → List ℕ
| [], _, _ => []
| DimType.DIM_FEATURE :: ds, ics, fcs => fcs.headD 0 :: mergeCoords ds ics fcs.tail
| DimType.DIM_DATA :: ds, ics, fcs => ics.headD 0 :: mergeCoords ds ics.tail fcs
| DimType.DIM_DUAL :: ds, ics, fcs => ics.headD 0 :: mergeCoords ds ics.tail fcs

/-- The (extent, role) pairs of the exemplar-indexing axes: every axis not
marked `DIM_FEATURE` (data_matrix.h line 119: the single index does "row-major
indexing into all dimensions marked as data or dual"). -/
def idxAxes (dm : DataMatrix) : List (ℕ × DimType) :=
  (dm.shape.zip dm.dt).filter (fun p => p.2 ≠ DimType.DIM_FEATURE)

/-- Extents of the exemplar-indexing axes, in axis order. -/
def idxExtents (dm : DataMatrix) : List ℕ := (idxAxes dm).map Prod.fst

/-- Roles of the exemplar-indexing axes, in axis order. -/
def idxRoles (dm : DataMatrix) : List DimType := (idxAxes dm).map Prod.snd

/-- Extents of the feature-role axes, in axis order. -/
def featExtents (dm : DataMatrix) : List ℕ :=
  ((dm.shape.zip dm.dt).filter (fun p => p.2 = DimType.DIM_FEATURE)).map Prod.fst

/-- `DataMatrix_exemplars`: number of exemplars — the product of the extents
of the data/dual axes (derived layout, spec.md §3). -/
def DataMatrix_exemplars (dm : DataMatrix) : ℕ := (idxExtents dm).prod

/-- Product of the feature-axis extents: the number of flattened feature
positions before the weight feature is excluded. -/
def extFeatsTotal (dm : DataMatrix) : ℕ := (featExtents dm).prod

/-- Number of dual axes, each of which contributes one (coordinate) element
to the front of the feature vector (`dual_feats` of the struct). -/
def dualCount (dm : DataMatrix) : ℕ :=
  (dm.dt.filter (fun d => d = DimType.DIM_DUAL)).length

/-- `DataMatrix_features`: length of the returned feature vector — dual
elements plus flattened feature elements, minus the weight feature when one
is configured (header line 71: "Takes into account feature dimensions and the
weight feature"). -/
def DataMatrix_features (dm : DataMatrix) : ℕ :=
  dualCount dm + extFeatsTotal dm - (if 0 ≤ dm.weight_index then 1 else 0)

/-- Coordinates of exemplar `i` along the exemplar-indexing axes, row-major. -/
def exCoords (dm : DataMatrix) (i : ℕ) : List ℕ := unflatten (idxExtents dm) i

/-- Flat row-major offset of feature position `f` of exemplar `i` in the
wrapped array. -/
def offset (dm : DataMatrix) (i f : ℕ) : ℕ :=
  flatten dm.shape (mergeCoords dm.dt (exCoords dm i) (unflatten (featExtents dm) f))

/-- External (storage) value at feature position `f` of exemplar `i`, as read
through `to_float`. -/
def rawAt (dm : DataMatrix) (i f : ℕ) : ℚ := dm.data (offset dm i f)

/-- The dual elements of exemplar `i`: its coordinates along the dual axes,
in axis order — already canonical, hence never passed through a codec. -/
def dualCoords (dm : DataMatrix) (i : ℕ) : List ℚ :=
  ((((idxRoles dm).zip (exCoords dm i)).filter
      (fun p => p.1 = DimType.DIM_DUAL)).map (fun p => (p.2 : ℚ)))

/-- The flattened feature positions that are emitted: row-major order with the
weight position (if configured) skipped. -/
def featPositions (dm : DataMatrix) : List ℕ :=
  (List.range (extFeatsTotal dm)).filter (fun f => (f : Int) ≠ dm.weight_index)

/-- Codec bound to external feature position `f`: the identity when no
conversion is configured. -/
def codecAt (dm : DataMatrix) (f : ℕ) : Convert :=
  match dm.conv with
  | none => idConvert
  | some cs => cs.getD f idConvert

/-- Modelled from the spec: the vector `DataMatrix_ext_fv` fills — dual
coordinates first, then the raw feature values in row-major order with the
weight position skipped; no conversion, no scaling (spec.md §4.3
`extract_external`). -/
def extVec (dm : DataMatrix) (i : ℕ) : List ℚ :=
  dualCoords dm i ++ (featPositions dm).map (rawAt dm i)

/-- Modelled from the spec: the vector `DataMatrix_fv` fills — dual
coordinates (never converted), then the feature values passed through their
bound codec, everything multiplied element-wise by `mult` (spec.md §4.3). -/
def intVec (dm : DataMatrix) (i : ℕ) : List ℚ :=
  List.zipWith (· * ·)
    dm.mult
    (dualCoords dm i ++
      (featPositions dm).map (fun f => (codecAt dm f).decode (rawAt dm i f)))

/-- Raw weight of exemplar `i` as `DataMatrix_ext_fv` reports it: the stored
value at the weight position, unconverted and unscaled; the implicit weight
`1` when no weight feature is configured. -/
def rawWeight (dm : DataMatrix) (i : ℕ) : ℚ :=
  if 0 ≤ dm.weight_index then rawAt dm i dm.weight_index.toNat else 1

/-- Modelled from the spec: the weight `DataMatrix_fv` reports — the weight
element decoded through its codec and multiplied by `weight_scale` (never by
a `mult` entry), or the fixed implicit weight `1` when no weight feature is
configured (spec.md §4.3). -/
def intWeight (dm : DataMatrix) (i : ℕ) : ℚ :=
  if 0 ≤ dm.weight_index then
    (codecAt dm dm.weight_index.toNat).decode (rawAt dm i dm.weight_index.toNat)
      * dm.weight_scale
  else 1

/-- Modelled from the spec: `DataMatrix_fv` — bounds-check the exemplar index
(spec.md §4.3: "Precondition: 0 ≤ index < exemplar_count; violating this
fails with OutOfRangeError"), then return the internal feature vector and the
weight. -/
def DataMatrix_fv (dm : DataMatrix) (index : Int) : Except Err (List ℚ × ℚ) :=
  if 0 ≤ index ∧ index < (DataMatrix_exemplars dm : Int) then
    .ok (intVec dm index.toNat, intWeight dm index.toNat)
  else
    .error .OutOfRangeError

/-- Modelled from the spec: `DataMatrix_ext_fv` — same bounds check and offset
computation as `DataMatrix_fv`, but external format: no conversion, no
scaling (header line 122). -/
def DataMatrix_ext_fv (dm : DataMatrix) (index : Int) : Except Err (List ℚ × ℚ) :=
  if 0 ≤ index ∧ index < (DataMatrix_exemplars dm : Int) then
    .ok (extVec dm index.toNat, rawWeight dm index.toNat)
  else
    .error .OutOfRangeError

/-- Element-wise multiplication by the `mult` array (scaling, internal
direction). -/
def scaleVec (dm : DataMatrix) (v : List ℚ) : List ℚ :=
  List.zipWith (· * ·) dm.mult v

/-- Element-wise division by the `mult` array (unscaling, external
direction). -/
def unscaleVec (dm : DataMatrix) (v : List ℚ) : List ℚ :=
  List.zipWith (fun m x => x / m) dm.mult v

/-- Decode a full emitted-layout vector: dual positions untouched, feature
positions through their bound codec. -/
def decodeVec (dm : DataMatrix) (v : List ℚ) : List ℚ :=
  v.take (dualCount dm) ++
    List.zipWith (fun f x => (codecAt dm f).decode x)
      (featPositions dm) (v.drop (dualCount dm))

/-- Encode a full emitted-layout vector: dual positions untouched, feature
positions through their bound codec's `encode` direction. -/
def encodeVec (dm : DataMatrix) (v : List ℚ) : List ℚ :=
  v.take (dualCount dm) ++
    List.zipWith (fun f x => (codecAt dm f).encode x)
      (featPositions dm) (v.drop (dualCount dm))

/-- Modelled from the spec: `DataMatrix_to_int` — convert an external vector
to the internal representation (codec, then scale).  Per the header (line
129), when no conversion is configured it "just returns the pointer to the
provided external array rather than copying", which "means conversion and
multiplication by scale" and is "effectivly destructive to external": the
scaling is applied in place in the caller's buffer, hence `borrowed`. -/
def DataMatrix_to_int (dm : DataMatrix) (external : List ℚ) : ConvResult :=
  match dm.conv with
  | none => .borrowed (scaleVec dm external)
  | some _ => .owned (scaleVec dm (decodeVec dm external))

/-- Modelled from the spec: `DataMatrix_to_ext` — the other direction
(header line 132): unscale, then encode back to the external format; without
conversion the caller's buffer is rewritten in place and returned. -/
def DataMatrix_to_ext (dm : DataMatrix) (internal : List ℚ) : ConvResult :=
  match dm.conv with
  | none => .borrowed (unscaleVec dm internal)
  | some _ => .owned (encodeVec dm (unscaleVec dm internal))

/-- `DataMatrix_set_scale` (header line 115): stores the per-feature
multipliers and the weight scale.  The header places the length obligation on
the caller ("the scale array passed in better have the right length, as
returned by the feats method"), the function returns `void`, and the
cumulative-weight cache is deliberately not invalidated (header line 65: it
keeps "whatever [the weight_scale] was when the cache is built"). -/
def DataMatrix_set_scale (dm : DataMatrix) (scale : List ℚ) (ws : ℚ) : DataMatrix :=
  { dm with mult := scale, weight_scale := ws }

/-- The per-exemplar weights the sampler accumulates: the raw (external)
weight of each exemplar multiplied by the current `weight_scale`
(spec.md §4.4). -/
def sampleWeights (dm : DataMatrix) : List ℚ :=
  (List.range (DataMatrix_exemplars dm)).map (fun i => rawWeight dm i * dm.weight_scale)

/-- Inclusive running sums of a list (entry `i` is the sum of the first
`i + 1` elements). -/
def runningSums (l : List ℚ) : List ℚ :=
  (List.range l.length).map (fun i => ((l.take (i + 1)).sum))

/-- The cumulative-weight array `rebuild` produces: inclusive running sums of
the scaled per-exemplar weights, one entry per exemplar, last entry the total
weight (header line 65). -/
def cumWeights (dm : DataMatrix) : List ℚ := runningSums (sampleWeights dm)

/-- Modelled from the spec: `rebuild` of the weighted sampler (spec.md §4.4)
— fails with `ConfigurationError` when no weight feature is configured,
otherwise recomputes the cumulative-weight array from scratch. -/
def DataMatrix_rebuild (dm : DataMatrix) : Except Err DataMatrix :=
  if 0 ≤ dm.weight_index then
    .ok { dm with weight_cum := some (cumWeights dm) }
  else
    .error .ConfigurationError

/-- First index whose entry is `≥ v` (list length if none): the lower-bound
result the binary search must reproduce. -/
def lbIdx (cum : List ℚ) (v : ℚ) : ℕ :=
  match cum with
  | [] => 0
  | c :: cs => if v ≤ c then 0 else lbIdx cs v + 1

/-- Fuelled lower-bound binary search over `[lo, lo + len)`; the fuel is the
initial window length, which bounds the recursion depth. -/
def lbSearch (cum : List ℚ) (v : ℚ) : ℕ → ℕ → ℕ → ℕ
| 0, lo, _ => lo
| fuel + 1, lo, len =>
  if len = 0 then lo
  else if cum.getD (lo + len / 2) 0 < v then
    lbSearch cum v fuel (lo + len / 2 + 1) (len - len / 2 - 1)
  else
    lbSearch cum v fuel lo (len / 2)

/-- Lower-bound binary search over a whole cumulative-weight array: first
entry `≥ v` (spec.md §4.4). -/
def lowerBoundBS (cum : List ℚ) (v : ℚ) : ℕ := lbSearch cum v cum.length 0 cum.length

/-- Modelled from the spec: `DataMatrix_draw` — one uniform value
`u ∈ [0, 1)` is consumed.  Without a weight feature the draw is uniform over
the exemplars (header line 125: weighted only "If exemplars are weighted").
With one, the cumulative-weight array (built lazily if absent) is scaled into
by `u`, a zero total fails with `DegenerateDistributionError`, and otherwise
the lower-bound binary search yields the exemplar (spec.md §4.4). -/
def DataMatrix_draw (dm : DataMatrix) (u : ℚ) : Except Err Int :=
  if dm.weight_index < 0 then
    .ok (Int.floor ((DataMatrix_exemplars dm : ℚ) * u))
  else
    let cum := dm.weight_cum.getD (cumWeights dm)
    let total := cum.getLast?.getD 0
    if total = 0 then
      .error .DegenerateDistributionError
    else
      .ok ((lowerBoundBS cum (u * total) : ℕ) : Int)

/-! ### Concrete instances (the buffers of the specification's §8 scenarios) -/

/-- Scenario buffer of spec.md §8: 4 exemplars × 3 features, row-major values
0..11, no weight, no conversion, unit scale. -/
def exm : DataMatrix :=
  { shape := [4, 3], dt := [.DIM_DATA, .DIM_FEATURE], data := fun n => (n : ℚ),
    weight_index := -1, weight_scale := 1, weight_cum := none,
    mult := [1, 1, 1], conv := none }

/-- The same buffer with `weight_index = 2` and `weight_scale = 2`
(spec.md §8, second scenario). -/
def exmW : DataMatrix := { exm with weight_index := 2, weight_scale := 2, mult := [1, 1] }

/-- A buffer with a dual axis and an active conversion: shape 2×2×2 with roles
Data, Dual, Feature, values 100..107, and two non-trivial codecs. -/
def exmD : DataMatrix :=
  { shape := [2, 2, 2], dt := [.DIM_DATA, .DIM_DUAL, .DIM_FEATURE],
    data := fun n => (100 + n : ℚ),
    weight_index := -1, weight_scale := 1, weight_cum := none,
    mult := [10, 2, 3],
    conv := some [⟨fun x => x + 1, fun x => x - 1⟩, ⟨fun x => 2 * x, fun x => x / 2⟩] }

/-- The weighted scenario buffer with every stored value zero: all weights
vanish. -/
def exmZ : DataMatrix := { exmW with data := fun _ => 0 }

/-- A 2-exemplar weighted buffer (weights 1 and 2) used for the sampler
claims. -/
def dmQ : DataMatrix :=
  { shape := [2, 1], dt := [.DIM_DATA, .DIM_FEATURE],
    data := fun n => if n = 0 then 1 else 2,
    weight_index := 0, weight_scale := 1, weight_cum := none,
    mult := [], conv := none }

/-- `dmQ` after a successful `rebuild`: the cumulative-weight cache is
populated under `weight_scale = 1`. -/
def dmQ1 : DataMatrix := { dmQ with weight_cum := some (cumWeights dmQ) }

/-- A single-feature buffer with multiplier 2 and no conversion, exercising
the in-place scaling of `DataMatrix_to_int`. -/
def dmS : DataMatrix :=
  { shape := [1, 1], dt := [.DIM_DATA, .DIM_FEATURE], data := fun _ => 0,
    weight_index := -1, weight_scale := 1, weight_cum := none,
    mult := [2], conv := none }

/-! ### Helper lemmas -/

theorem length_unflatten (es : List ℕ) (n : ℕ) : (unflatten es n).length = es.length := by
  induction es generalizing n with
  | nil => rfl
  | cons e es ih => simp [unflatten, ih]

theorem filter_zip_count {α β : Type} (q : α → Bool) :
    ∀ (rs : List α) (cs : List β), rs.length = cs.length →
      ((rs.zip cs).filter (fun p => q p.1)).length = (rs.filter q).length := by
  intro rs
  induction rs with
  | nil => intro cs _; simp
  | cons r rs ih =>
    intro cs h
    cases cs with
    | nil => simp at h
    | cons c cs =>
      simp only [List.zip_cons_cons, List.filter_cons]
      cases hq : q r <;> simp [hq, ih cs (by simpa using h)]

theorem map_snd_filter_snd {α β : Type} (q : β → Bool) (l : List (α × β)) :
    (l.filter (fun p => q p.2)).map Prod.snd = (l.map Prod.snd).filter q := by
  induction l with
  | nil => rfl
  | cons a l ih =>
    simp only [List.filter_cons, List.map_cons]
    cases hq : q a.2 <;> simp [hq, ih]

theorem idxRoles_eq (dm : DataMatrix) (hsd : dm.shape.length = dm.dt.length) :
    idxRoles dm = dm.dt.filter (fun d => d ≠ DimType.DIM_FEATURE) := by
  unfold idxRoles idxAxes
  rw [map_snd_filter_snd (fun d => decide (d ≠ DimType.DIM_FEATURE)) (dm.shape.zip dm.dt)]
  rw [List.map_snd_zip dm.shape dm.dt (le_of_eq hsd.symm)]

theorem dualCoords_length (dm : DataMatrix) (i : ℕ)
    (hsd : dm.shape.length = dm.dt.length) :
    (dualCoords dm i).length = dualCount dm := by
  unfold dualCoords dualCount
  rw [List.length_map]
  rw [filter_zip_count (fun d => decide (d = DimType.DIM_DUAL)) (idxRoles dm)
    (exCoords dm i)
    (by simp [idxRoles, exCoords, length_unflatten, idxExtents])]
  rw [idxRoles_eq dm hsd, List.filter_filter]
  congr 1
  apply List.filter_congr
  intro d _
  cases d <;> rfl

theorem extVec_take (dm : DataMatrix) (i : ℕ) (hsd : dm.shape.length = dm.dt.length) :
    (extVec dm i).take (dualCount dm) = dualCoords dm i := by
  unfold extVec
  exact List.take_left' (dualCoords_length dm i hsd)

theorem extVec_drop (dm : DataMatrix) (i : ℕ) (hsd : dm.shape.length = dm.dt.length) :
    (extVec dm i).drop (dualCount dm) = (featPositions dm).map (rawAt dm i) := by
  unfold extVec
  exact List.drop_left' (dualCoords_length dm i hsd)

theorem intVec_take (dm : DataMatrix) (i : ℕ) (hsd : dm.shape.length = dm.dt.length) :
    (intVec dm i).take (dualCount dm) =
      List.zipWith (· * ·) (dm.mult.take (dualCount dm)) (dualCoords dm i) := by
  unfold intVec
  rw [List.take_zipWith]
  rw [List.take_left' (dualCoords_length dm i hsd)]

theorem intVec_drop (dm : DataMatrix) (i : ℕ) (hsd : dm.shape.length = dm.dt.length) :
    (intVec dm i).drop (dualCount dm) =
      List.zipWith (· * ·) (dm.mult.drop (dualCount dm))
        ((featPositions dm).map (fun f => (codecAt dm f).decode (rawAt dm i f))) := by
  unfold intVec
  rw [List.drop_zipWith]
  rw [List.drop_left' (dualCoords_length dm i hsd)]

theorem featPositions_all_ne (dm : DataMatrix) :
    ∀ f ∈ featPositions dm, (f : Int) ≠ dm.weight_index := by
  intro f hf
  simpa using List.of_mem_filter hf

theorem featPositions_of_neg (dm : DataMatrix) (h : dm.weight_index < 0) :
    featPositions dm = List.range (extFeatsTotal dm) := by
  apply List.filter_eq_self.mpr
  intro f _
  simp only [decide_eq_true_eq]
  intro hEq
  have : (0 : Int) ≤ (f : Int) := Int.natCast_nonneg f
  omega

theorem length_filter_ne_range (t w : ℕ) (h : w < t) :
    ((List.range t).filter (fun f => f ≠ w)).length = t - 1 := by
  induction t with
  | zero => omega
  | succ t ih =>
    rw [List.range_succ, List.filter_append]
    rcases Nat.lt_or_ge w t with h' | h'
    · have ht : (t ≠ w) = True := by simp; omega
      rw [List.length_append, ih h']
      simp only [List.filter_cons, List.filter_nil]
      rw [if_pos (by simp; omega)]
      simp
      omega
    · have hwt : w = t := by omega
      subst hwt
      simp only [List.filter_cons, List.filter_nil]
      rw [if_neg (by simp)]
      rw [List.filter_eq_self.mpr (by intro a ha; simp; have := List.mem_range.mp ha; omega)]
      simp

theorem featPositions_length_weighted (dm : DataMatrix) (w : ℕ)
    (hw : dm.weight_index = (w : Int)) (hlt : w < extFeatsTotal dm) :
    (featPositions dm).length = extFeatsTotal dm - 1 := by
  have h1 : featPositions dm = (List.range (extFeatsTotal dm)).filter (fun f => f ≠ w) := by
    unfold featPositions
    apply List.filter_congr
    intro f _
    rw [decide_eq_decide]
    rw [hw]
    exact not_congr Int.natCast_inj
  rw [h1]
  exact length_filter_ne_range _ _ hlt

theorem featPositions_length (dm : DataMatrix)
    (hv : dm.weight_index < 0 ∨
      (0 ≤ dm.weight_index ∧ dm.weight_index.toNat < extFeatsTotal dm)) :
    (featPositions dm).length =
      extFeatsTotal dm - (if 0 ≤ dm.weight_index then 1 else 0) := by
  rcases hv with h | ⟨h0, hlt⟩
  · rw [featPositions_of_neg dm h, List.length_range, if_neg (by omega), Nat.sub_zero]
  · rw [featPositions_length_weighted dm dm.weight_index.toNat (by omega) hlt,
      if_pos h0]

theorem featPositions_sorted (dm : DataMatrix) :
    List.Chain' (· < ·) (featPositions dm) := by
  apply List.chain'_iff_pairwise.mpr
  exact List.Pairwise.sublist (List.filter_sublist _) (List.pairwise_lt_range _)

theorem zipWith_same_map {α β γ : Type} (h : α → β → γ) (g : α → β) :
    ∀ P : List α, List.zipWith h P (P.map g) = P.map (fun p => h p (g p)) := by
  intro P
  induction P with
  | nil => rfl
  | cons a P ih => simp [ih]

theorem unscale_scale (mult : List ℚ) :
    ∀ v : List ℚ, (∀ m ∈ mult, m ≠ 0) → v.length ≤ mult.length →
      List.zipWith (fun m x => x / m) mult (List.zipWith (· * ·) mult v) = v := by
  induction mult with
  | nil =>
    intro v _ hlen
    rw [List.length_nil, Nat.le_zero, List.length_eq_zero] at hlen
    subst hlen
    rfl
  | cons m ms ih =>
    intro v h0 hlen
    cases v with
    | nil => rfl
    | cons x xs =>
      simp only [List.zipWith_cons_cons]
      rw [mul_div_cancel_left₀ x (h0 m (List.mem_cons_self m ms))]
      rw [ih xs (fun m' hm' => h0 m' (List.mem_cons_of_mem m hm')) (by simpa using hlen)]

theorem zipWith_one_mul (v : List ℚ) :
    List.zipWith (· * ·) (List.replicate v.length 1) v = v := by
  induction v with
  | nil => rfl
  | cons x xs ih => simp [List.replicate_succ, ih]

theorem getLast_getD_zero_of_all_zero :
    ∀ l : List ℚ, (∀ x ∈ l, x = 0) → l.getLast?.getD 0 = 0 := by
  intro l
  induction l with
  | nil => intro _; rfl
  | cons x xs ih =>
    intro h
    cases xs with
    | nil => simpa using h x (by simp)
    | cons y ys =>
      rw [List.getLast?_cons_cons]
      exact ih (fun z hz => h z (List.mem_cons_of_mem x hz))

/-! ### Lower-bound search -/

theorem lbIdx_le_length (cum : List ℚ) (v : ℚ) : lbIdx cum v ≤ cum.length := by
  induction cum with
  | nil => simp [lbIdx]
  | cons c cs ih =>
    simp only [lbIdx, List.length_cons]
    split
    · omega
    · omega

theorem getD_lt_of_lt_lbIdx (cum : List ℚ) (v : ℚ) :
    ∀ j, j < lbIdx cum v → cum.getD j 0 < v := by
  induction cum with
  | nil => simp [lbIdx]
  | cons c cs ih =>
    intro j hj
    simp only [lbIdx] at hj
    split at hj
    · omega
    · cases j with
      | zero => simpa [List.getD_cons_zero] using not_le.mp (by assumption)
      | succ j =>
        rw [List.getD_cons_succ]
        exact ih j (by omega)

theorem le_getD_lbIdx (cum : List ℚ) (v : ℚ) :
    lbIdx cum v < cum.length → v ≤ cum.getD (lbIdx cum v) 0 := by
  induction cum with
  | nil => simp [lbIdx]
  | cons c cs ih =>
    simp only [lbIdx]
    split
    · intro _
      simpa [List.getD_cons_zero] using (by assumption : v ≤ c)
    · intro h
      rw [List.getD_cons_succ]
      exact ih (by simpa using h)

theorem lbIdx_unique (cum : List ℚ) (v : ℚ) (k : ℕ)
    (hk : k ≤ cum.length)
    (hlow : ∀ j, j < k → cum.getD j 0 < v)
    (hhi : k < cum.length → v ≤ cum.getD k 0) :
    lbIdx cum v = k := by
  rcases Nat.lt_trichotomy (lbIdx cum v) k with h | h | h
  · exact absurd (le_getD_lbIdx cum v (by omega))
      (not_le.mpr (hlow (lbIdx cum v) h))
  · exact h
  · have hkl : k < cum.length := by
      have := lbIdx_le_length cum v
      omega
    exact absurd (hhi hkl) (not_le.mpr (getD_lt_of_lt_lbIdx cum v k h))

theorem chain_getD_mono (l : List ℚ) (hc : List.Chain' (· ≤ ·) l) :
    ∀ i j, i ≤ j → j < l.length → l.getD i 0 ≤ l.getD j 0 := by
  intro i j hij hj
  rcases Nat.eq_or_lt_of_le hij with h | h
  · subst h; exact le_refl _
  · have hp : l.Pairwise (· ≤ ·) := List.chain'_iff_pairwise.mp hc
    have := List.pairwise_iff_get.mp hp ⟨i, by omega⟩ ⟨j, hj⟩ h
    rw [List.getD_eq_getElem l 0 (by omega), List.getD_eq_getElem l 0 hj]
    simpa using this

theorem lbSearch_eq (cum : List ℚ) (v : ℚ) (hchain : List.Chain' (· ≤ ·) cum) :
    ∀ fuel len lo, len ≤ fuel → lo + len ≤ cum.length →
      (∀ j, j < lo → cum.getD j 0 < v) →
      (∀ j, lo + len ≤ j → j < cum.length → v ≤ cum.getD j 0) →
      lbSearch cum v fuel lo len = lbIdx cum v := by
  intro fuel
  induction fuel with
  | zero =>
    intro len lo hf hb hlow hhi
    have hlen : len = 0 := by omega
    subst hlen
    simp only [lbSearch]
    exact (lbIdx_unique cum v lo (by omega) hlow
      (fun h => hhi lo (by omega) h)).symm
  | succ fuel ih =>
    intro len lo hf hb hlow hhi
    by_cases h0 : len = 0
    · subst h0
      simp only [lbSearch, if_pos rfl]
      exact (lbIdx_unique cum v lo (by omega) hlow
        (fun h => hhi lo (by omega) h)).symm
    · simp only [lbSearch, if_neg h0]
      have hmid : lo + len / 2 < cum.length := by omega
      split
      · -- cum[mid] < v : answer is right of mid
        apply ih
        · omega
        · omega
        · intro j hj
          rcases Nat.lt_or_ge j lo with hjlo | hjlo
          · exact hlow j hjlo
          · calc cum.getD j 0 ≤ cum.getD (lo + len / 2) 0 :=
                  chain_getD_mono cum hchain j (lo + len / 2) (by omega) hmid
              _ < v := by assumption
        · intro j hj hjl
          exact hhi j (by omega) hjl
      · -- v ≤ cum[mid] : answer is at or left of mid
        apply ih
        · omega
        · omega
        · exact hlow
        · intro j hj hjl
          calc v ≤ cum.getD (lo + len / 2) 0 := not_lt.mp (by assumption)
            _ ≤ cum.getD j 0 := chain_getD_mono cum hchain (lo + len / 2) j (by omega) hjl

theorem lowerBoundBS_eq (cum : List ℚ) (v : ℚ) (hchain : List.Chain' (· ≤ ·) cum) :
    lowerBoundBS cum v = lbIdx cum v := by
  apply lbSearch_eq cum v hchain
  · exact le_refl _
  · omega
  · intro j hj; omega
  · intro j hj hjl; omega

/-! ### Running sums -/

theorem runningSums_length (l : List ℚ) : (runningSums l).length = l.length := by
  simp [runningSums]

theorem runningSums_getD (l : List ℚ) (k : ℕ) (hk : k < l.length) :
    (runningSums l).getD k 0 = (l.take (k + 1)).sum := by
  rw [List.getD_eq_getElem _ 0 (by rw [runningSums_length]; exact hk)]
  unfold runningSums
  rw [List.getElem_map]
  rw [List.getElem_range]

theorem runningSums_chain (l : List ℚ) (h : ∀ x ∈ l, 0 ≤ x) :
    List.Chain' (· ≤ ·) (runningSums l) := by
  rw [List.chain'_iff_get]
  intro i hi
  have hi' : i + 1 < l.length := by rw [runningSums_length] at hi; omega
  rw [List.get_eq_getElem, List.get_eq_getElem,
    ← List.getD_eq_getElem _ 0, ← List.getD_eq_getElem _ 0]
  rw [runningSums_getD l i (by omega), runningSums_getD l (i + 1) hi']
  rw [List.sum_take_succ l (i + 1) hi']
  have : 0 ≤ l[i + 1] := h _ (List.getElem_mem hi')
  linarith

theorem runningSums_getLast (l : List ℚ) : (runningSums l).getLast?.getD 0 = l.sum := by
  cases hl : l.length with
  | zero =>
    rw [List.length_eq_zero] at hl
    subst hl
    rfl
  | succ n =>
    unfold runningSums
    rw [hl, List.range_succ, List.map_append, List.map_cons, List.map_nil,
      List.getLast?_concat]
    simp only [Option.getD_some]
    rw [show n + 1 = l.length from hl.symm, List.take_length]

theorem runningSums_all_zero (l : List ℚ) (h : ∀ x ∈ l, x = 0) :
    ∀ y ∈ runningSums l, y = 0 := by
  intro y hy
  unfold runningSums at hy
  rcases List.mem_map.mp hy with ⟨i, _, rfl⟩
  apply List.sum_eq_zero
  intro x hx
  exact h x (List.mem_of_mem_take hx)

theorem getLast_getD_eq (l : List ℚ) (h : l ≠ []) :
    l.getLast?.getD 0 = l.getD (l.length - 1) 0 := by
  induction l with
  | nil => exact absurd rfl h
  | cons x xs ih =>
    cases xs with
    | nil => rfl
    | cons y ys =>
      have hlen : (x :: y :: ys).length - 1 = ((y :: ys).length - 1) + 1 := by simp
      rw [List.getLast?_cons_cons, ih (List.cons_ne_nil y ys), hlen, List.getD_cons_succ]

theorem lbIdx_lt_length (cum : List ℚ) (v : ℚ) (hne : cum ≠ [])
    (hlast : v ≤ cum.getD (cum.length - 1) 0) : lbIdx cum v < cum.length := by
  by_contra hcon
  have h1 : cum.length - 1 < lbIdx cum v := by
    have h2 : 0 < cum.length := List.length_pos.mpr hne
    omega
  exact absurd hlast (not_le.mpr (getD_lt_of_lt_lbIdx cum v _ h1))

theorem fv_ok (dm : DataMatrix) (i : ℕ) (hi : i < DataMatrix_exemplars dm) :
    DataMatrix_fv dm (i : Int) = .ok (intVec dm i, intWeight dm i) := by
  unfold DataMatrix_fv
  rw [if_pos ⟨Int.natCast_nonneg i, by exact_mod_cast hi⟩]
  rw [Int.toNat_natCast]

theorem ext_fv_ok (dm : DataMatrix) (i : ℕ) (hi : i < DataMatrix_exemplars dm) :
    DataMatrix_ext_fv dm (i : Int) = .ok (extVec dm i, rawWeight dm i) := by
  unfold DataMatrix_ext_fv
  rw [if_pos ⟨Int.natCast_nonneg i, by exact_mod_cast hi⟩]
  rw [Int.toNat_natCast]

theorem emitted_length (dm : DataMatrix) (i : ℕ) (g : ℕ → ℚ)
    (hsd : dm.shape.length = dm.dt.length)
    (hv : dm.weight_index < 0 ∨
      (0 ≤ dm.weight_index ∧ dm.weight_index.toNat < extFeatsTotal dm)) :
    (dualCoords dm i ++ (featPositions dm).map g).length = DataMatrix_features dm := by
  rw [List.length_append, List.length_map, dualCoords_length dm i hsd,
    featPositions_length dm hv]
  unfold DataMatrix_features
  rcases hv with h | ⟨h0, hlt⟩
  · rw [if_neg (by omega)]
    omega
  · rw [if_pos h0]
    omega

/-! ### Claims -/

/-- C5: for every attached buffer, `DataMatrix_fv` (and likewise
`DataMatrix_ext_fv`) rejects every index outside `[0, exemplar_count)` —
in particular `index = exemplar_count` and `index = -1` — with
`OutOfRangeError`, rather than reading the buffer. -/
theorem C5_fv_out_of_range (dm : DataMatrix) (index : Int)
    (h : index < 0 ∨ (DataMatrix_exemplars dm : Int) ≤ index) :
    DataMatrix_fv dm index = .error .OutOfRangeError ∧
    DataMatrix_ext_fv dm index = .error .OutOfRangeError := by
  have hc : ¬ (0 ≤ index ∧ index < (DataMatrix_exemplars dm : Int)) := by omega
  constructor
  · unfold DataMatrix_fv
    rw [if_neg hc]
  · unfold DataMatrix_ext_fv
    rw [if_neg hc]

/-- C5 witness: on the 4-exemplar scenario buffer, `index = 4`
(= exemplar_count) and `index = -1` both fail with `OutOfRangeError`. -/
theorem C5_fv_out_of_range_witness :
    ((4 : Int) < 0 ∨ (DataMatrix_exemplars exm : Int) ≤ 4) ∧
    ((-1 : Int) < 0 ∨ (DataMatrix_exemplars exm : Int) ≤ -1) ∧
    DataMatrix_fv exm 4 = .error .OutOfRangeError ∧
    DataMatrix_fv exm (-1) = .error .OutOfRangeError ∧
    DataMatrix_ext_fv exm 4 = .error .OutOfRangeError ∧
    DataMatrix_ext_fv exm (-1) = .error .OutOfRangeError := by
  refine ⟨by decide, by decide, ?_, ?_, ?_, ?_⟩
  · exact (C5_fv_out_of_range exm 4 (by decide)).1
  · exact (C5_fv_out_of_range exm (-1) (by decide)).1
  · exact (C5_fv_out_of_range exm 4 (by decide)).2
  · exact (C5_fv_out_of_range exm (-1) (by decide)).2

/-- C10: with no weight feature configured (`weight_index < 0`),
`DataMatrix_draw` does not fail, ignores the cumulative-weight cache
entirely, and returns the uniformly drawn index `⌊exemplars · u⌋`, which
lies in `[0, exemplars)` for `u ∈ [0, 1)`. -/
theorem C10_draw_uniform (dm : DataMatrix) (u : ℚ)
    (hw : dm.weight_index < 0) (h0 : 0 ≤ u) (h1 : u < 1)
    (hex : 0 < DataMatrix_exemplars dm) :
    DataMatrix_draw dm u = .ok (Int.floor ((DataMatrix_exemplars dm : ℚ) * u)) ∧
    0 ≤ Int.floor ((DataMatrix_exemplars dm : ℚ) * u) ∧
    Int.floor ((DataMatrix_exemplars dm : ℚ) * u) < (DataMatrix_exemplars dm : Int) ∧
    (∀ c : Option (List ℚ),
      DataMatrix_draw { dm with weight_cum := c } u = DataMatrix_draw dm u) := by
  have hdraw : DataMatrix_draw dm u = .ok (Int.floor ((DataMatrix_exemplars dm : ℚ) * u)) := by
    unfold DataMatrix_draw
    rw [if_pos hw]
  refine ⟨hdraw, ?_, ?_, ?_⟩
  · exact Int.floor_nonneg.mpr (mul_nonneg (by positivity) h0)
  · apply Int.floor_lt.mpr
    push_cast
    exact mul_lt_of_lt_one_right (by positivity) h1
  · intro c
    rw [hdraw]
    unfold DataMatrix_draw
    rw [if_pos hw]
    rfl

/-- C10 witness: the unweighted scenario buffer (4 exemplars) with `u = 1/2`;
the cache contents are irrelevant. -/
theorem C10_draw_uniform_witness :
    exm.weight_index < 0 ∧ (0 : ℚ) ≤ 1 / 2 ∧ (1 / 2 : ℚ) < 1 ∧
    0 < DataMatrix_exemplars exm ∧
    DataMatrix_draw exm (1 / 2) = .ok (Int.floor ((DataMatrix_exemplars exm : ℚ) * (1 / 2))) ∧
    DataMatrix_draw { exm with weight_cum := some [5] } (1 / 2) = DataMatrix_draw exm (1 / 2) := by
  have h := C10_draw_uniform exm (1 / 2) (by decide) (by norm_num) (by norm_num) (by decide)
  exact ⟨by decide, by norm_num, by norm_num, by decide, h.1, h.2.2.2 (some [5])⟩

/-- C8 counterexample: the claim says a mismatched scale length fails with
`ConfigurationError`, leaving the scale state unchanged.  On the weighted
scenario buffer (`feature_count = 2`), `DataMatrix_set_scale` with a length-3
array does not fail and the scale state does change — matching the header's
"the scale array passed in better have the right length" (no validation, and
the function returns `void`, so it has no failure channel). -/
theorem C8_cex_set_scale_unvalidated :
    DataMatrix_features exmW = 2 ∧
    ([(5 : ℚ), 6, 7].length = 3) ∧
    (DataMatrix_set_scale exmW [5, 6, 7] 9).mult = [5, 6, 7] ∧
    (DataMatrix_set_scale exmW [5, 6, 7] 9).mult ≠ exmW.mult ∧
    (DataMatrix_set_scale exmW [5, 6, 7] 9).weight_scale = 9 := by
  refine ⟨by decide, by decide, rfl, by decide, rfl⟩

/-- C8 (amended): `DataMatrix_set_scale` performs no length validation and
has no failure path — it unconditionally stores the supplied multipliers and
weight scale (the header makes the correct length, `feats`, the caller's
obligation), touching nothing else. -/
theorem C8_set_scale_stores (dm : DataMatrix) (scale : List ℚ) (ws : ℚ) :
    (DataMatrix_set_scale dm scale ws).mult = scale ∧
    (DataMatrix_set_scale dm scale ws).weight_scale = ws ∧
    (DataMatrix_set_scale dm scale ws).shape = dm.shape ∧
    (DataMatrix_set_scale dm scale ws).dt = dm.dt ∧
    (DataMatrix_set_scale dm scale ws).data = dm.data ∧
    (DataMatrix_set_scale dm scale ws).weight_index = dm.weight_index ∧
    (DataMatrix_set_scale dm scale ws).weight_cum = dm.weight_cum ∧
    (DataMatrix_set_scale dm scale ws).conv = dm.conv :=
  ⟨rfl, rfl, rfl, rfl, rfl, rfl, rfl, rfl⟩

/-- C9 counterexample: the claim says the no-conversion `DataMatrix_to_int`
returns the external buffer with its element values unchanged.  With
multiplier 2 and external value 3 the returned (aliased) buffer holds 6, not
3 — the header calls the operation "conversion and multiplication by scale"
and "effectivly destructive to external". -/
theorem C9_cex_to_int_scales_in_place :
    dmS.conv = none ∧
    DataMatrix_to_int dmS [3] = .borrowed [6] ∧
    ConvResult.borrowed [(6 : ℚ)] ≠ ConvResult.borrowed [(3 : ℚ)] := by
  refine ⟨rfl, ?_, ?_⟩
  · norm_num [DataMatrix_to_int, dmS, scaleVec]
  · norm_num

/-- C9 (amended): with no conversion configured, `DataMatrix_to_int` returns
the caller's external buffer itself (aliased, not copied — so a separate
internal buffer is unnecessary), with the per-feature multipliers applied to
its elements in place; the values are unchanged exactly in the special case
of an all-ones multiplier array. -/
theorem C9_to_int_aliased (dm : DataMatrix) (ext : List ℚ) (h : dm.conv = none) :
    DataMatrix_to_int dm ext = .borrowed (scaleVec dm ext) ∧
    (dm.mult = List.replicate ext.length 1 → DataMatrix_to_int dm ext = .borrowed ext) := by
  constructor
  · unfold DataMatrix_to_int
    rw [h]
  · intro hm
    unfold DataMatrix_to_int
    rw [h]
    unfold scaleVec
    rw [hm, zipWith_one_mul]

/-- C9 witness: the amended statement at the concrete single-feature buffer
with multiplier 2 and external vector `[3]`. -/
theorem C9_to_int_aliased_witness :
    dmS.conv = none ∧
    DataMatrix_to_int dmS [3] = .borrowed (scaleVec dmS [3]) := by
  exact ⟨rfl, (C9_to_int_aliased dmS [3] rfl).1⟩

/-- C2: with a configured `weight_index`, the weight element is excluded from
the reported feature count and from the emitted positions of the extracted
vector, and `DataMatrix_fv` returns the raw stored weight multiplied by
`weight_scale` only (no per-feature multiplier); with no `weight_index`, the
returned weight is exactly 1. -/
theorem C2_weight_excluded (dm : DataMatrix) (i w : ℕ)
    (hw : dm.weight_index = (w : Int)) (hlt : w < extFeatsTotal dm)
    (hconv : dm.conv = none) (hi : i < DataMatrix_exemplars dm) :
    DataMatrix_features dm + 1 = dualCount dm + extFeatsTotal dm ∧
    (featPositions dm).length + 1 = extFeatsTotal dm ∧
    (∀ f ∈ featPositions dm, (f : Int) ≠ dm.weight_index) ∧
    DataMatrix_fv dm (i : Int) = .ok (intVec dm i, rawAt dm i w * dm.weight_scale) ∧
    (∀ (dm2 : DataMatrix) (j : ℕ), dm2.weight_index < 0 →
      j < DataMatrix_exemplars dm2 →
      DataMatrix_fv dm2 (j : Int) = .ok (intVec dm2 j, 1)) := by
  have h0w : (0 : Int) ≤ dm.weight_index := by rw [hw]; exact Int.natCast_nonneg w
  refine ⟨?_, ?_, featPositions_all_ne dm, ?_, ?_⟩
  · unfold DataMatrix_features
    rw [if_pos h0w]
    omega
  · rw [featPositions_length_weighted dm w hw hlt]
    omega
  · have hwt : intWeight dm i = rawAt dm i w * dm.weight_scale := by
      unfold intWeight
      rw [if_pos h0w, hw, Int.toNat_natCast]
      simp [codecAt, hconv, idConvert]
    rw [fv_ok dm i hi, hwt]
  · intro dm2 j h2 hj
    have hwt : intWeight dm2 j = 1 := by
      unfold intWeight
      rw [if_neg (by omega)]
    rw [fv_ok dm2 j hj, hwt]

/-- C2 witness: the weighted scenario buffer (`weight_index = 2`,
`weight_scale = 2`): feature count drops to 2 and the extracted weight is the
raw value at the weight position times 2; the unweighted buffer yields
weight 1. -/
theorem C2_weight_excluded_witness :
    exmW.weight_index = ((2 : ℕ) : Int) ∧ (2 : ℕ) < extFeatsTotal exmW ∧
    exmW.conv = none ∧ (2 : ℕ) < DataMatrix_exemplars exmW ∧
    DataMatrix_features exmW + 1 = dualCount exmW + extFeatsTotal exmW ∧
    DataMatrix_fv exmW ((2 : ℕ) : Int) =
      .ok (intVec exmW 2, rawAt exmW 2 2 * exmW.weight_scale) ∧
    DataMatrix_fv exm ((1 : ℕ) : Int) = .ok (intVec exm 1, 1) := by
  have h := C2_weight_excluded exmW 2 2 rfl (by decide) rfl (by decide)
  exact ⟨rfl, by decide, rfl, by decide, h.1, h.2.2.2.1,
    h.2.2.2.2 exm 1 (by decide) (by decide)⟩

/-- C3: the extracted vector emits the dual elements first (scaled but never
passed through a codec, whatever the conversion state), followed by the
feature elements in ascending (row-major) flattened order with the weight
position skipped, each feature element passing through its bound codec before
scaling. -/
theorem C3_emission_order (dm : DataMatrix) (i : ℕ)
    (hsd : dm.shape.length = dm.dt.length) :
    (intVec dm i).take (dualCount dm) =
      List.zipWith (· * ·) (dm.mult.take (dualCount dm)) (dualCoords dm i) ∧
    (intVec dm i).drop (dualCount dm) =
      List.zipWith (· * ·) (dm.mult.drop (dualCount dm))
        ((featPositions dm).map (fun f => (codecAt dm f).decode (rawAt dm i f))) ∧
    (extVec dm i).take (dualCount dm) = dualCoords dm i ∧
    (extVec dm i).drop (dualCount dm) = (featPositions dm).map (rawAt dm i) ∧
    List.Chain' (· < ·) (featPositions dm) ∧
    (∀ f ∈ featPositions dm, (f : Int) ≠ dm.weight_index) ∧
    (dm.conv = none → ∀ f, codecAt dm f = idConvert) :=
  ⟨intVec_take dm i hsd, intVec_drop dm i hsd, extVec_take dm i hsd,
   extVec_drop dm i hsd, featPositions_sorted dm, featPositions_all_ne dm,
   fun h f => by simp [codecAt, h]⟩

/-- C3 witness: the dual-axis buffer with active conversion at exemplar 3:
the dual prefix is the scaled dual coordinates with no codec applied, the
remainder the converted features in ascending position order. -/
theorem C3_emission_order_witness :
    exmD.shape.length = exmD.dt.length ∧
    (intVec exmD 3).take (dualCount exmD) =
      List.zipWith (· * ·) (exmD.mult.take (dualCount exmD)) (dualCoords exmD 3) ∧
    (intVec exmD 3).drop (dualCount exmD) =
      List.zipWith (· * ·) (exmD.mult.drop (dualCount exmD))
        ((featPositions exmD).map (fun f => (codecAt exmD f).decode (rawAt exmD 3 f))) ∧
    (extVec exmD 3).take (dualCount exmD) = dualCoords exmD 3 ∧
    List.Chain' (· < ·) (featPositions exmD) := by
  have h := C3_emission_order exmD 3 rfl
  exact ⟨rfl, h.1, h.2.1, h.2.2.1, h.2.2.2.2.1⟩

/-- C6: with all per-exemplar weights zero, `rebuild` succeeds (producing an
all-zero cumulative array) and every subsequent `draw` fails with
`DegenerateDistributionError`. -/
theorem C6_zero_weights (dm : DataMatrix) (hw : 0 ≤ dm.weight_index)
    (hz : ∀ i, i < DataMatrix_exemplars dm → rawWeight dm i = 0) :
    DataMatrix_rebuild dm = .ok { dm with weight_cum := some (cumWeights dm) } ∧
    ∀ u : ℚ, DataMatrix_draw { dm with weight_cum := some (cumWeights dm) } u =
      .error .DegenerateDistributionError := by
  have hall : ∀ x ∈ sampleWeights dm, x = 0 := by
    intro x hx
    rcases List.mem_map.mp hx with ⟨i, hi, rfl⟩
    rw [hz i (List.mem_range.mp hi), zero_mul]
  have htot : (cumWeights dm).getLast?.getD 0 = 0 := by
    unfold cumWeights
    rw [runningSums_getLast]
    exact List.sum_eq_zero hall
  constructor
  · unfold DataMatrix_rebuild
    rw [if_pos hw]
  · intro u
    have hwi : ({ dm with weight_cum := some (cumWeights dm) } : DataMatrix).weight_index
        = dm.weight_index := rfl
    have hcm : ({ dm with weight_cum := some (cumWeights dm) } : DataMatrix).weight_cum
        = some (cumWeights dm) := rfl
    simp only [DataMatrix_draw, hwi, hcm, Option.getD_some]
    rw [if_neg (by omega), if_pos htot]

/-- C6 witness: the weighted scenario buffer over an all-zero array:
`rebuild` returns success, `draw` at `u = 1/2` fails with
`DegenerateDistributionError`. -/
theorem C6_zero_weights_witness :
    (0 : Int) ≤ exmZ.weight_index ∧
    DataMatrix_rebuild exmZ = .ok { exmZ with weight_cum := some (cumWeights exmZ) } ∧
    DataMatrix_draw { exmZ with weight_cum := some (cumWeights exmZ) } (1 / 2) =
      .error .DegenerateDistributionError := by
  have h := C6_zero_weights exmZ (by decide) (fun i _ => rfl)
  exact ⟨by decide, h.1, h.2 (1 / 2)⟩

theorem dmQ_sample : sampleWeights dmQ = [1, 2] := by
  unfold sampleWeights
  rw [show DataMatrix_exemplars dmQ = 2 by decide]
  show [rawWeight dmQ 0 * dmQ.weight_scale, rawWeight dmQ 1 * dmQ.weight_scale] = [1, 2]
  rw [show rawWeight dmQ 0 = 1 from rfl, show rawWeight dmQ 1 = 2 from rfl]
  norm_num [dmQ]

theorem dmQ_cum : cumWeights dmQ = [1, 3] := by
  unfold cumWeights
  rw [dmQ_sample]
  show [List.sum [(1 : ℚ)], List.sum [(1 : ℚ), 2]] = [1, 3]
  norm_num

theorem dmQ_rescaled_cum : cumWeights (DataMatrix_set_scale dmQ1 [] 2) = [2, 6] := by
  unfold cumWeights
  have hsw : sampleWeights (DataMatrix_set_scale dmQ1 [] 2) = [2, 4] := by
    unfold sampleWeights
    rw [show DataMatrix_exemplars (DataMatrix_set_scale dmQ1 [] 2) = 2 by decide]
    show [rawWeight (DataMatrix_set_scale dmQ1 [] 2) 0 *
            (DataMatrix_set_scale dmQ1 [] 2).weight_scale,
          rawWeight (DataMatrix_set_scale dmQ1 [] 2) 1 *
            (DataMatrix_set_scale dmQ1 [] 2).weight_scale] = [2, 4]
    rw [show rawWeight (DataMatrix_set_scale dmQ1 [] 2) 0 = 1 from rfl,
      show rawWeight (DataMatrix_set_scale dmQ1 [] 2) 1 = 2 from rfl,
      show (DataMatrix_set_scale dmQ1 [] 2).weight_scale = 2 from rfl]
    norm_num
  rw [hsw]
  show [List.sum [(2 : ℚ)], List.sum [(2 : ℚ), 4]] = [2, 6]
  norm_num

/-- C7 counterexample: the claim says the cumulative-weight array is rebuilt
whenever `weight_scale` changes, so no operation observes an array built
under a stale scale.  After `rebuild` under `weight_scale = 1` (cache
`[1, 3]`), `DataMatrix_set_scale` to `weight_scale = 2` leaves the cache at
`[1, 3]`, which is not the array `[2, 6]` a rebuild under the new scale
produces — exactly as the header documents ("this uses a random weight_scale
… whatever it was when the cache is built"). -/
theorem C7_cex_stale_cache :
    (DataMatrix_rebuild dmQ).toOption.map (fun d => d.weight_cum) = some (some [1, 3]) ∧
    dmQ1.weight_cum = some [1, 3] ∧
    (DataMatrix_set_scale dmQ1 [] 2).weight_scale = 2 ∧
    (DataMatrix_set_scale dmQ1 [] 2).weight_cum = some [1, 3] ∧
    cumWeights (DataMatrix_set_scale dmQ1 [] 2) = [2, 6] ∧
    (DataMatrix_set_scale dmQ1 [] 2).weight_cum ≠
      some (cumWeights (DataMatrix_set_scale dmQ1 [] 2)) := by
  have h1 : dmQ1.weight_cum = some [1, 3] := by
    show some (cumWeights dmQ) = _
    rw [dmQ_cum]
  refine ⟨?_, h1, rfl, h1, dmQ_rescaled_cum, ?_⟩
  · unfold DataMatrix_rebuild
    rw [if_pos (by decide), dmQ_cum]
    rfl
  · show dmQ1.weight_cum ≠ some (cumWeights (DataMatrix_set_scale dmQ1 [] 2))
    rw [h1, dmQ_rescaled_cum]
    norm_num

/-- C7 (amended): the cumulative-weight array produced by `rebuild` is an
ordered sequence of `exemplar_count` monotonically non-decreasing inclusive
partial sums (for non-negative weights and scale) whose last entry equals the
total scaled weight; but a `weight_scale` change via `set_scale` does *not*
invalidate it — the cache deliberately keeps whatever scale was current when
it was built, which is sound for drawing because a uniform scale factor does
not change the selected index. -/
theorem C7_cum_invariant (dm : DataMatrix) (hs : 0 ≤ dm.weight_scale)
    (hw : ∀ i, i < DataMatrix_exemplars dm → 0 ≤ rawWeight dm i) :
    (cumWeights dm).length = DataMatrix_exemplars dm ∧
    List.Chain' (· ≤ ·) (cumWeights dm) ∧
    (cumWeights dm).getLast?.getD 0 = (sampleWeights dm).sum ∧
    (∀ scale ws, (DataMatrix_set_scale dm scale ws).weight_cum = dm.weight_cum) := by
  refine ⟨?_, ?_, runningSums_getLast _, fun _ _ => rfl⟩
  · unfold cumWeights
    rw [runningSums_length]
    unfold sampleWeights
    simp
  · apply runningSums_chain
    intro x hx
    rcases List.mem_map.mp hx with ⟨i, hi, rfl⟩
    exact mul_nonneg (hw i (List.mem_range.mp hi)) hs

/-- C7 witness: the 2-exemplar weighted buffer — the built array `[1, 3]` has
the right length, is non-decreasing, ends in the total weight, and survives a
`set_scale` untouched. -/
theorem C7_cum_invariant_witness :
    (0 : ℚ) ≤ dmQ.weight_scale ∧
    (cumWeights dmQ).length = DataMatrix_exemplars dmQ ∧
    List.Chain' (· ≤ ·) (cumWeights dmQ) ∧
    (cumWeights dmQ).getLast?.getD 0 = (sampleWeights dmQ).sum ∧
    (DataMatrix_set_scale dmQ [] 5).weight_cum = dmQ.weight_cum := by
  have h := C7_cum_invariant dmQ (by norm_num [dmQ]) ?_
  · exact ⟨by norm_num [dmQ], h.1, h.2.1, h.2.2.1, h.2.2.2 [] 5⟩
  · intro i hi
    rw [show DataMatrix_exemplars dmQ = 2 by decide] at hi
    interval_cases i
    · rw [show rawWeight dmQ 0 = 1 from rfl]
      norm_num
    · rw [show rawWeight dmQ 1 = 2 from rfl]
      norm_num

/-- C4: on a built, monotone cumulative-weight array, for every drawn value
`v ∈ [0, total)`, `DataMatrix_draw` returns exactly the lower-bound
binary-search result: the first entry whose inclusive partial sum is `≥ v`
(the draw consumes the uniform `u = v / total ∈ [0, 1)`). -/
theorem C4_draw_lower_bound (dm : DataMatrix) (cum : List ℚ) (v : ℚ)
    (hw : 0 ≤ dm.weight_index) (hc : dm.weight_cum = some cum)
    (hchain : List.Chain' (· ≤ ·) cum)
    (h0 : 0 ≤ v) (hv : v < cum.getLast?.getD 0) :
    DataMatrix_draw dm (v / cum.getLast?.getD 0) = .ok ((lbIdx cum v : ℕ) : Int) ∧
    lbIdx cum v < cum.length ∧
    (∀ j, j < lbIdx cum v → cum.getD j 0 < v) ∧
    v ≤ cum.getD (lbIdx cum v) 0 := by
  have htpos : 0 < cum.getLast?.getD 0 := lt_of_le_of_lt h0 hv
  have hne : cum ≠ [] := by
    intro h
    subst h
    simp at htpos
  have hlast : cum.getLast?.getD 0 = cum.getD (cum.length - 1) 0 := getLast_getD_eq cum hne
  have hlb : lbIdx cum v < cum.length :=
    lbIdx_lt_length cum v hne (by rw [← hlast]; exact le_of_lt hv)
  refine ⟨?_, hlb, getD_lt_of_lt_lbIdx cum v, le_getD_lbIdx cum v hlb⟩
  simp only [DataMatrix_draw]
  rw [if_neg (by omega), hc]
  simp only [Option.getD_some]
  rw [if_neg htpos.ne', div_mul_cancel₀ v htpos.ne', lowerBoundBS_eq cum v hchain]

/-- C4 witness: cumulative array `[1, 3]` with drawn value `v = 2`
(`u = 2/3`): the draw returns index 1, the first entry with partial sum
`≥ 2`. -/
theorem C4_draw_lower_bound_witness :
    (0 : Int) ≤ dmQ1.weight_index ∧ dmQ1.weight_cum = some [1, 3] ∧
    List.Chain' (· ≤ ·) [(1 : ℚ), 3] ∧ (0 : ℚ) ≤ 2 ∧
    (2 : ℚ) < [(1 : ℚ), 3].getLast?.getD 0 ∧
    DataMatrix_draw dmQ1 (2 / [(1 : ℚ), 3].getLast?.getD 0) =
      .ok ((lbIdx [(1 : ℚ), 3] 2 : ℕ) : Int) ∧
    lbIdx [(1 : ℚ), 3] 2 < 2 := by
  have hc : dmQ1.weight_cum = some [1, 3] := by
    show some (cumWeights dmQ) = _
    rw [dmQ_cum]
  have hchain : List.Chain' (· ≤ ·) [(1 : ℚ), 3] := by norm_num
  have hv : (2 : ℚ) < [(1 : ℚ), 3].getLast?.getD 0 := by norm_num
  have h := C4_draw_lower_bound dmQ1 [1, 3] 2 (by decide) hc hchain (by norm_num) hv
  refine ⟨by decide, hc, hchain, by norm_num, hv, h.1, by simpa using h.2.1⟩

/-- C1: for every valid exemplar index, applying `DataMatrix_to_ext` to the
vector `DataMatrix_fv` produced yields exactly the values
`DataMatrix_ext_fv` produces on the dual positions, and on every feature
position the `encode ∘ decode` image of that value (the precision loss of the
bound codec); with no conversion configured the round trip is exact
equality. -/
theorem C1_roundtrip (dm : DataMatrix) (i : ℕ)
    (hi : i < DataMatrix_exemplars dm)
    (hsd : dm.shape.length = dm.dt.length)
    (hm : dm.mult.length = DataMatrix_features dm)
    (h0 : ∀ m ∈ dm.mult, m ≠ 0)
    (hv : dm.weight_index < 0 ∨
      (0 ≤ dm.weight_index ∧ dm.weight_index.toNat < extFeatsTotal dm)) :
    DataMatrix_fv dm (i : Int) = .ok (intVec dm i, intWeight dm i) ∧
    DataMatrix_ext_fv dm (i : Int) = .ok (extVec dm i, rawWeight dm i) ∧
    (DataMatrix_to_ext dm (intVec dm i)).values =
      dualCoords dm i ++ (featPositions dm).map
        (fun f => (codecAt dm f).encode ((codecAt dm f).decode (rawAt dm i f))) ∧
    (dm.conv = none → (DataMatrix_to_ext dm (intVec dm i)).values = extVec dm i) := by
  have hus : ∀ g : ℕ → ℚ,
      unscaleVec dm (scaleVec dm (dualCoords dm i ++ (featPositions dm).map g)) =
        dualCoords dm i ++ (featPositions dm).map g := by
    intro g
    apply unscale_scale dm.mult _ h0
    rw [emitted_length dm i g hsd hv, hm]
  have hIntVec : intVec dm i =
      scaleVec dm (dualCoords dm i ++ (featPositions dm).map
        (fun f => (codecAt dm f).decode (rawAt dm i f))) := rfl
  refine ⟨fv_ok dm i hi, ext_fv_ok dm i hi, ?_, ?_⟩
  · cases hcv : dm.conv with
    | none =>
      have hid : ∀ f, codecAt dm f = idConvert := fun f => by simp [codecAt, hcv]
      unfold DataMatrix_to_ext
      rw [hcv]
      show unscaleVec dm (intVec dm i) = _
      rw [hIntVec, hus]
      simp [hid, idConvert]
    | some cs =>
      unfold DataMatrix_to_ext
      rw [hcv]
      show encodeVec dm (unscaleVec dm (intVec dm i)) = _
      rw [hIntVec, hus]
      unfold encodeVec
      rw [List.take_left' (dualCoords_length dm i hsd),
        List.drop_left' (dualCoords_length dm i hsd),
        zipWith_same_map]
  · intro hcv
    have hid : ∀ f, codecAt dm f = idConvert := fun f => by simp [codecAt, hcv]
    unfold DataMatrix_to_ext
    rw [hcv]
    show unscaleVec dm (intVec dm i) = _
    rw [hIntVec, hus]
    unfold extVec
    simp [hid, idConvert]

/-- C1 witness: exact round trip on the no-conversion scenario buffer at
index 2, and codec-image round trip on the dual-axis converted buffer at
index 3. -/
theorem C1_roundtrip_witness :
    (2 : ℕ) < DataMatrix_exemplars exm ∧
    exm.mult.length = DataMatrix_features exm ∧
    (∀ m ∈ exm.mult, m ≠ 0) ∧
    (DataMatrix_to_ext exm (intVec exm 2)).values = extVec exm 2 ∧
    (3 : ℕ) < DataMatrix_exemplars exmD ∧
    (∀ m ∈ exmD.mult, m ≠ 0) ∧
    (DataMatrix_to_ext exmD (intVec exmD 3)).values =
      dualCoords exmD 3 ++ (featPositions exmD).map
        (fun f => (codecAt exmD f).encode ((codecAt exmD f).decode (rawAt exmD 3 f))) := by
  have h1 := C1_roundtrip exm 2 (by decide) rfl (by decide) (by norm_num [exm])
    (Or.inl (by decide))
  have h2 := C1_roundtrip exmD 3 (by decide) rfl (by decide) (by norm_num [exmD])
    (Or.inl (by decide))
  exact ⟨by decide, by decide, by norm_num [exm], h1.2.2.2 rfl, by decide,
    by norm_num [exmD], h2.2.2.1⟩

end MS
